import Mathlib

/-
Verification development for the compatibility scoring engine of the
asset-intelligence-graph-rag repository (backend/compatibility/scoring.py,
backend/db.py, backend/ingestion/yaml_ingestor.py).

Modelling conventions:
- Python floats are modelled as exact rationals (ℚ); values that are only
  produced through `math.sqrt` (the cosine of two embeddings) live in ℝ.
- A Neo4j property that may be absent is an `Option`.
- Python truthiness of a string is `s ≠ ""`, of a list is non-emptiness,
  of `None` is false.
- Spec values are untyped at storage level; `SpecValue.num q` stands for any
  Python value accepted by `float(...)` (ints, floats, numeric strings),
  carrying the parsed rational; `SpecValue.str` is a value rejected by
  `float`, and `SpecValue.null` is Python `None`.
- Explanation strings follow the source texts, except that the Python
  `f"...{x:.2f}"` numeric interpolations are omitted (claims only depend on
  the fixed default messages and on list equality).
- `set(..) & set(..)` iterates in unspecified order; we iterate the shared
  spec keys in `List.dedup` order of the first part, which is one admissible
  order (the mean score is order-invariant).
-/

namespace AssetGraph

/-- Storage-level spec value: numeric (anything Python float() accepts),
categorical string, or null. -/
inductive SpecValue where
  | num (q : ℚ)
  | str (s : String)
  | null
deriving DecidableEq

/-- In-memory part representation, mirroring the dataclass PartInfo of
backend/compatibility/scoring.py. The specs dict is an association list with
the dict insertion order; the embedding is a list of floats or absent. -/
structure PartInfo where
  part_id : String
  name : Option String
  category : String
  description : Option String
  assemblies : List String
  specs : List (String × SpecValue × String)
  embedding : Option (List ℚ)
deriving DecidableEq

/-- Dictionary lookup in the specs association list (first binding wins,
as in a Python dict with unique keys). -/
def specLookup (specs : List (String × SpecValue × String)) (k : String) :
    Option (SpecValue × String) :=
  (specs.find? fun e => e.1 = k).map fun e => e.2

/-- Test `_is_number` of scoring.py: whether `float(value)` succeeds. -/
def _is_number : SpecValue → Bool
  | SpecValue.num _ => true
  | _ => false

/-- Numeric spec score `_score_numeric` of scoring.py. -/
def _score_numeric (a b : ℚ) : ℚ :=
  if a = 0 ∧ b = 0 then 1
  else if a = 0 ∨ b = 0 then 0
  else max 0 (1 - |a - b| / max |a| |b|)

/-- Per-shared-key contribution of the mechanical-similarity loop body:
numeric pairs get `_score_numeric`, equal non-null values (not both numeric)
get 1.0, all other keys are skipped (`none`). -/
def keyEntry (p1 p2 : PartInfo) (k : String) : Option (ℚ × String) :=
  match specLookup p1.specs k, specLookup p2.specs k with
  | some (v1, _u1), some (v2, _u2) =>
    match v1, v2 with
    | SpecValue.num a, SpecValue.num b =>
        some (_score_numeric a b, "Numeric spec " ++ k ++ " close")
    | _, _ =>
        if v1 = v2 ∧ v1 ≠ SpecValue.null then
          some (1, "Categorical spec " ++ k ++ " matches")
        else none
  | _, _ => none

/-- Scored entries of the mechanical-similarity loop: the shared spec keys
(the `set & set` intersection, iterated in first-part key order) filtered
through the loop body. -/
def mechScored (p1 p2 : PartInfo) : List (ℚ × String) :=
  (((p1.specs.map fun e => e.1).dedup).filter fun k =>
      (specLookup p2.specs k).isSome).filterMap (keyEntry p1 p2)

/-- Mechanical similarity `_mechanical_similarity` of scoring.py: mean of the
per-key scores over the shared spec keys, default 0.0 when no key scores. -/
def _mechanical_similarity (p1 p2 : PartInfo) : ℚ × List String :=
  match mechScored p1 p2 with
  | [] => (0, ["No shared specs; mechanical similarity default 0.0"])
  | scored =>
    ((scored.map fun e => e.1).sum / scored.length, scored.map fun e => e.2)

/-- Fixed pairing table of `_functional_role_similarity` (an ordered-pair
set literal in the source). -/
def pairings : List (String × String) :=
  [("Bearings", "Spindle"), ("Spindle", "Bearings"),
   ("Z Axis", "Z Axis"), ("X Axis", "X Axis"),
   ("Tailstock", "Tailstock"), ("Mold", "Mold"),
   ("Materials", "Mold"), ("Tools", "Mold")]

/-- Functional-role similarity `_functional_role_similarity` of scoring.py. -/
def _functional_role_similarity (p1 p2 : PartInfo) : ℚ × List String :=
  if p1.category = p2.category then
    (1, ["Same category " ++ p1.category ++ " for both parts (score=1.0)"])
  else if (p1.category, p2.category) ∈ pairings then
    (0.8, ["Functional pairing between " ++ p1.category ++ " and "
             ++ p2.category ++ " (score=0.8)"])
  else
    (0, ["Different categories " ++ p1.category ++ " vs "
           ++ p2.category ++ " (score=0.0)"])

/-- Truncating dot product `sum(x*y for x, y in zip(e1, e2))`. -/
def dotzip : List ℚ → List ℚ → ℚ
  | x :: xs, y :: ys => x * y + dotzip xs ys
  | _, _ => 0

/-- Sum of squares of a vector; `norm = sqrt (sumsq l)` in the source. -/
def sumsq (l : List ℚ) : ℚ := (l.map fun x => x * x).sum

/-- Semantic similarity `_semantic_similarity` of scoring.py. The source
guard `if not e1 or not e2` (None or empty list) is the fallthrough match
arm; the guard `norm1 == 0 or norm2 == 0` is expressed on the squared norms
(`Real.sqrt s = 0 ↔ s = 0` for `s ≥ 0`). In the main branch the score is
`(cos + 1)/2` with `cos = dot / (norm1 * norm2)`. -/
noncomputable def _semantic_similarity (p1 p2 : PartInfo) : ℝ × List String :=
  match p1.embedding, p2.embedding with
  | some (x :: e1), some (y :: e2) =>
    if sumsq (x :: e1) = 0 ∨ sumsq (y :: e2) = 0 then
      (0.5, ["Zero-length embeddings; semantic similarity default 0.5"])
    else
      let cos : ℝ := (dotzip (x :: e1) (y :: e2) : ℚ) /
        (Real.sqrt ((sumsq (x :: e1) : ℚ) : ℝ) *
          Real.sqrt ((sumsq (y :: e2) : ℚ) : ℝ))
      ((cos + 1) / 2, ["Embedding cosine similarity"])
  | _, _ => (0.5, ["Missing embeddings; semantic similarity default 0.5"])

/-- Hierarchy similarity `_hierarchy_similarity` of scoring.py: 1.0 iff the
two assembly-name sets intersect. -/
def _hierarchy_similarity (p1 p2 : PartInfo) : ℚ × List String :=
  match p1.assemblies.filter fun a => a ∈ p2.assemblies with
  | [] => (0, ["No shared assemblies (score=0.0)"])
  | _ => (1, ["Parts share assemblies (score=1.0)"])

/-- Score combiner `_combine_scores` of scoring.py. -/
noncomputable def _combine_scores (mech func sem hier : ℝ) : ℝ × List String :=
  let w_mech : ℝ := 0.35
  let w_func : ℝ := 0.25
  let w_sem : ℝ := 0.25
  let w_hier : ℝ := 0.15
  (w_mech * mech + w_func * func + w_sem * sem + w_hier * hier,
   ["Final score (mechanical, functional, semantic, hierarchy)"])

/-- All scores computed for one pair, as in the bodies of the batch loop and
of the virtual-part loop of scoring.py. -/
structure PairScores where
  mech : ℚ
  func : ℚ
  sem : ℝ
  hier : ℚ
  final : ℝ
  explanations : List String

/-- Run the four metrics and the combiner on one pair, collecting the
concatenated explanation list, exactly as both loops of scoring.py do. -/
noncomputable def scorePair (p1 p2 : PartInfo) : PairScores :=
  let m := _mechanical_similarity p1 p2
  let f := _functional_role_similarity p1 p2
  let s := _semantic_similarity p1 p2
  let h := _hierarchy_similarity p1 p2
  let c := _combine_scores (m.1 : ℝ) (f.1 : ℝ) s.1 (h.1 : ℝ)
  { mech := m.1, func := f.1, sem := s.1, hier := h.1, final := c.1,
    explanations := m.2 ++ f.2 ++ s.2 ++ h.2 ++ c.2 }

/-- One directed COMPATIBLE_WITH edge write (MERGE + SET of all fields), as
issued by compute_compatibility_for_product. -/
structure EdgeWrite where
  src : String
  dst : String
  score : ℝ
  mechanical : ℚ
  functional : ℚ
  semantic : ℝ
  hierarchy : ℚ
  explanations : List String

/-- Keys of the Python dict `part_map = {p.part_id: p for p in parts}` in
insertion (first-occurrence) order. -/
def partMapIds (parts : List PartInfo) : List String :=
  parts.foldl (fun acc p => if p.part_id ∈ acc then acc else acc ++ [p.part_id]) []

/-- Value stored in `part_map` for a key: the last part with that id wins,
as in a Python dict comprehension. -/
def partMapGet (parts : List PartInfo) (k : String) : Option PartInfo :=
  parts.reverse.find? fun p => p.part_id = k

/-- Ordered pairs `(ids[i], ids[j])` with `i < j`, as enumerated by the
nested loops `for i, a_id in enumerate(ids): for b_id in ids[i+1:]`. -/
def orderedPairs : List String → List (String × String)
  | [] => []
  | x :: xs => (xs.map fun y => (x, y)) ++ orderedPairs xs

/-- Edge writes of one `session.run` call of the batch loop: the a→b edge
and the b→a edge whose fields are copied from the first (`SET r2.score =
r.score, ...`). -/
noncomputable def pairTransaction (a_id b_id : String) (p1 p2 : PartInfo) :
    List EdgeWrite :=
  let r := scorePair p1 p2
  [{ src := a_id, dst := b_id, score := r.final, mechanical := r.mech,
     functional := r.func, semantic := r.sem, hierarchy := r.hier,
     explanations := r.explanations },
   { src := b_id, dst := a_id, score := r.final, mechanical := r.mech,
     functional := r.func, semantic := r.sem, hierarchy := r.hier,
     explanations := r.explanations }]

/-- Transaction of one ordered pair of ids, resolving the ids through
`part_map` (the dict indexing `part_map[a_id]` never fails for keys of the
map; the fallthrough arm is dead code for those). -/
noncomputable def pairTxn (parts : List PartInfo) (ab : String × String) :
    List EdgeWrite :=
  match partMapGet parts ab.1, partMapGet parts ab.2 with
  | some p1, some p2 => pairTransaction ab.1 ab.2 p1 p2
  | _, _ => []

/-- Sequence of per-pair auto-committed transactions issued inside the single
session of `work`: each `session.run` on a plain Neo4j session is one
auto-commit transaction, so the transaction list has one entry per unordered
pair, in loop order. -/
noncomputable def computeTransactions (parts : List PartInfo) :
    List (List EdgeWrite) :=
  (orderedPairs (partMapIds parts)).map (pairTxn parts)

/-- Model of `compute_compatibility_for_product` after the fetch: the outer
list is the sequence of `run_write` invocations (the source makes exactly
one, passing the whole pair loop as `work`); each invocation holds its
per-query transactions. -/
noncomputable def compute_compatibility_for_product (parts : List PartInfo) :
    List (List (List EdgeWrite)) :=
  [computeTransactions parts]

/-- All edge writes of the batch, in commit order. -/
noncomputable def finalEdges (parts : List PartInfo) : List EdgeWrite :=
  (computeTransactions parts).flatten

/-- Storage-level Spec node as returned in the `specs` column. -/
structure SpecNode where
  key : Option String
  value : SpecValue
  unit : Option String

/-- Storage-level Part node `p` of a fetched row. -/
structure PartNode where
  part_id : Option String
  name : Option String
  category : Option String
  description : Option String
  embedding : Option (List ℚ)

/-- One row delivered by the read capability for the fetch query: the part
node (possibly null), the collected spec nodes (each possibly falsy) and the
collected assembly names (each possibly null or empty). -/
structure Row where
  p : Option PartNode
  specs : List (Option SpecNode)
  assemblies : List (Option String)

/-- Dict insertion `specs_dict[key] = (value, unit)`: overwrite an existing
binding in place, else append. -/
def dictInsert (d : List (String × SpecValue × String)) (k : String)
    (v : SpecValue) (u : String) : List (String × SpecValue × String) :=
  if (d.find? fun e => e.1 = k).isSome then
    d.map fun e => if e.1 = k then (k, v, u) else e
  else d ++ [(k, v, u)]

/-- Build `specs_dict` from the collected spec nodes: falsy nodes and falsy
keys are skipped, `unit` defaults to the empty string. -/
def buildSpecs (specs : List (Option SpecNode)) :
    List (String × SpecValue × String) :=
  specs.foldl
    (fun d s =>
      match s with
      | none => d
      | some sn =>
        match sn.key with
        | none => d
        | some k => if k = "" then d else dictInsert d k sn.value (sn.unit.getD ""))
    []

/-- Per-row body of the fetch loop of `_fetch_parts_for_product`: skip a null
part node and a falsy `part_id` (`if not part_id: continue`), default the
category to "Uncategorized" when the property is absent, keep the truthy
assembly names, and build the spec dict. -/
def rowToPart (row : Row) : Option PartInfo :=
  match row.p with
  | none => none
  | some p =>
    match p.part_id with
    | none => none
    | some pid =>
      if pid = "" then none
      else
        some
          { part_id := pid
            name := p.name
            category := p.category.getD "Uncategorized"
            description := p.description
            assemblies := row.assemblies.filterMap fun a =>
              match a with
              | none => none
              | some s => if s = "" then none else some s
            specs := buildSpecs row.specs
            embedding := p.embedding }

/-- Fetch loop of `_fetch_parts_for_product`, folding the rows into the
accumulated parts list exactly as the Python `for row in rows` append loop
does. -/
def _fetch_parts_for_product (rows : List Row) : List PartInfo :=
  rows.foldl
    (fun parts row =>
      match rowToPart row with
      | none => parts
      | some p => parts ++ [p])
    []

/-- Category → assembly table ASSEMBLY_MAP of backend/ingestion/yaml_ingestor.py. -/
def ASSEMBLY_MAP : List (String × String) :=
  [("Spindle", "Spindle Assembly"), ("Bearings", "Spindle Assembly"),
   ("Z Axis", "Z Axis Assembly"), ("X Axis", "X Axis Assembly"),
   ("Tailstock", "Tailstock Assembly"), ("Mold", "Mold System Assembly"),
   ("Materials", "Material Group"), ("Tools", "Tooling Group"),
   ("Hardware", "Hardware Group"), ("Workholding", "Spindle Assembly"),
   ("Motor", "Spindle Assembly"), ("Transmission", "Spindle Assembly"),
   ("Mechanical", "Spindle Assembly"), ("Rotary Tool", "Tooling Group"),
   ("Linear Motion", "Axis Motion Assembly"), ("Frame", "Axis Motion Assembly"),
   ("Electronics", "Electronics Assembly")]

/-- Python truthiness of an optional string. -/
def truthyStr : Option String → Bool
  | none => false
  | some s => s ≠ ""

/-- Virtual part builder `_build_virtual_part` of scoring.py. The call
`embed_text(description)` goes to an external capability; its result is
passed in as `emb`. `category or "Unknown"` and the truthiness tests follow
Python semantics (empty string is falsy). -/
def _build_virtual_part (description : String) (category : Option String)
    (specs : Option (List (String × SpecValue × String)))
    (assembly_hint : Option String) (emb : Option (List ℚ)) : PartInfo :=
  let assemblies : List String :=
    if truthyStr assembly_hint then [assembly_hint.getD ""]
    else if truthyStr category ∧
        ((ASSEMBLY_MAP.find? fun e => e.1 = category.getD "").isSome) then
      [((ASSEMBLY_MAP.find? fun e => e.1 = category.getD "").map fun e => e.2).getD ""]
    else []
  { part_id := "NEW_PART"
    name := some "New Part"
    category := if truthyStr category then category.getD "" else "Unknown"
    description := some description
    assemblies := assemblies
    specs := specs.getD []
    embedding := emb }

/-
Claim-side (spec-side) definitions, written from the words of the spec and
of the claims, to be compared with the source-side functions above.
-/

/-- Spec-side functional-role score: 1.0 for equal category strings, else
0.8 when the ordered category pair is in the pairing table, else 0.0. -/
def functionalSpec (c1 c2 : String) : ℚ :=
  if c1 = c2 then 1 else if (c1, c2) ∈ pairings then 0.8 else 0

/-- Spec-side per-key mechanical score: both numeric gives the relative
closeness with the zero special cases; equal non-null values (categorical)
give 1.0; all other keys are not comparable. -/
def specKeyScore (v1 v2 : SpecValue) : Option ℚ :=
  match v1, v2 with
  | SpecValue.num a, SpecValue.num b =>
      some (if a = 0 ∧ b = 0 then 1
            else if a = 0 ∨ b = 0 then 0
            else max 0 (1 - |a - b| / max |a| |b|))
  | _, _ => if v1 = v2 ∧ v1 ≠ SpecValue.null then some 1 else none

/-- Scores of the shared comparable spec keys of two parts, in the iteration
order of the first part. -/
def sharedComparableScores (p1 p2 : PartInfo) : List ℚ :=
  ((p1.specs.map fun e => e.1).dedup).filterMap fun k =>
    match specLookup p1.specs k, specLookup p2.specs k with
    | some (v1, _), some (v2, _) => specKeyScore v1 v2
    | _, _ => none

/-- Whether an embedding slot counts as missing (absent or empty list). -/
def embMissing : Option (List ℚ) → Bool
  | none => true
  | some [] => true
  | some (_ :: _) => false

/-- Spec-side condition of the semantic default: either embedding missing,
or either vector of zero norm. -/
def missingOrZero (p1 p2 : PartInfo) : Bool :=
  embMissing p1.embedding || embMissing p2.embedding ||
  decide (sumsq (p1.embedding.getD []) = 0) ||
  decide (sumsq (p2.embedding.getD []) = 0)

/-- Cosine of the two embeddings, as the spec words it. -/
noncomputable def cosineOf (p1 p2 : PartInfo) : ℝ :=
  (dotzip (p1.embedding.getD []) (p2.embedding.getD []) : ℚ) /
    (Real.sqrt ((sumsq (p1.embedding.getD []) : ℚ) : ℝ) *
      Real.sqrt ((sumsq (p2.embedding.getD []) : ℚ) : ℝ))

/-
Concrete inputs used by counterexamples and witnesses.
-/

/-- Minimal part with a given id and category. -/
def mkIdPart (i c : String) : PartInfo :=
  { part_id := i, name := none, category := c, description := none,
    assemblies := [], specs := [], embedding := none }

/-- Part P1 of the end-to-end example of the spec. -/
def partP1 : PartInfo :=
  { part_id := "P1", name := some "Bearing", category := "Bearings",
    description := none, assemblies := ["Spindle Assembly"],
    specs := [("diameter", SpecValue.num 16, "mm")], embedding := none }

/-- Part P2 of the end-to-end example of the spec. -/
def partP2 : PartInfo :=
  { part_id := "P2", name := some "Spindle", category := "Spindle",
    description := none, assemblies := ["Spindle Assembly"],
    specs := [("diameter", SpecValue.num 16, "mm")], embedding := none }

/-- Three-part product used to count transactions and invocations. -/
def parts3 : List PartInfo :=
  [mkIdPart "A" "Bearings", mkIdPart "B" "Spindle", mkIdPart "C" "Tools"]

/-- Two-part product for the symmetry witness. -/
def parts2 : List PartInfo := [partP1, partP2]

/-- Fetched row whose part record carries part_id "P1". -/
def rowDup1 : Row :=
  { p := some { part_id := some "P1", name := some "first occurrence",
                category := some "Bearings", description := none,
                embedding := none },
    specs := [], assemblies := [] }

/-- Second fetched row with the same part_id "P1" but a different name. -/
def rowDup2 : Row :=
  { p := some { part_id := some "P1", name := some "second occurrence",
                category := some "Bearings", description := none,
                embedding := none },
    specs := [], assemblies := [] }

/-- Row set delivering the same part_id twice. -/
def rowsDup : List Row := [rowDup1, rowDup2]

/-- Fetched row whose part record has no category property. -/
def rowNoCat : Row :=
  { p := some { part_id := some "PC", name := none, category := none,
                description := none, embedding := none },
    specs := [], assemblies := [] }

/-
Theorems.
-/

/-- C3: for all inputs, the score combiner returns exactly
0.35*mech + 0.25*func + 0.25*sem + 0.15*hier; the weighted sum is never
renormalized (the formula has no dependence on which components carried a
missing-data default). -/
theorem combine_is_fixed_weighted_sum (mech func sem hier : ℝ) :
    (_combine_scores mech func sem hier).1 =
      0.35 * mech + 0.25 * func + 0.25 * sem + 0.15 * hier := rfl

/-- C4 counterexample: on the end-to-end example of the spec (parts P1 and
P2 with sub-scores mechanical=1.0, functional=0.8, semantic=0.5,
hierarchy=1.0), the combined final score is not 0.675 as the spec claims. -/
theorem example_final_score_ne :
    (scorePair partP1 partP2).final ≠ (0.675 : ℝ) := by
  have hm : (_mechanical_similarity partP1 partP2).1 = 1 := by
    have h : (_mechanical_similarity partP1 partP2).1
        = ([_score_numeric 16 16] : List ℚ).sum / (([0] : List ℚ).length : ℚ) := rfl
    rw [h]
    simp only [_score_numeric, List.sum_cons, List.sum_nil, List.length_cons,
      List.length_nil]
    norm_num
  have hf : (_functional_role_similarity partP1 partP2).1 = 0.8 := rfl
  have hh : (_hierarchy_similarity partP1 partP2).1 = 1 := rfl
  have hs : (_semantic_similarity partP1 partP2).1 = 0.5 := rfl
  show (_combine_scores ((_mechanical_similarity partP1 partP2).1 : ℝ)
      ((_functional_role_similarity partP1 partP2).1 : ℝ)
      (_semantic_similarity partP1 partP2).1
      ((_hierarchy_similarity partP1 partP2).1 : ℝ)).1 ≠ 0.675
  rw [hm, hf, hh, hs]
  show (0.35 : ℝ) * ((1 : ℚ) : ℝ) + 0.25 * ((0.8 : ℚ) : ℝ)
      + 0.25 * 0.5 + 0.15 * ((1 : ℚ) : ℝ) ≠ 0.675
  push_cast
  norm_num

/-- C4 (amended): on the end-to-end example, the four sub-scores are exactly
the ones the spec expects (mechanical 1.0, functional 0.8, semantic 0.5,
hierarchy 1.0), and the weighted sum 0.35+0.20+0.125+0.15 gives a final
score of 0.825, not 0.675. -/
theorem example_final_score :
    (scorePair partP1 partP2).mech = 1 ∧ (scorePair partP1 partP2).func = 0.8 ∧
    (scorePair partP1 partP2).sem = 0.5 ∧ (scorePair partP1 partP2).hier = 1 ∧
    (scorePair partP1 partP2).final = (0.825 : ℝ) := by
  have hm : (_mechanical_similarity partP1 partP2).1 = 1 := by
    have h : (_mechanical_similarity partP1 partP2).1
        = ([_score_numeric 16 16] : List ℚ).sum / (([0] : List ℚ).length : ℚ) := rfl
    rw [h]
    simp only [_score_numeric, List.sum_cons, List.sum_nil, List.length_cons,
      List.length_nil]
    norm_num
  have hf : (_functional_role_similarity partP1 partP2).1 = 0.8 := rfl
  have hh : (_hierarchy_similarity partP1 partP2).1 = 1 := rfl
  have hs : (_semantic_similarity partP1 partP2).1 = 0.5 := rfl
  refine ⟨hm, hf, hs, hh, ?_⟩
  show (_combine_scores ((_mechanical_similarity partP1 partP2).1 : ℝ)
      ((_functional_role_similarity partP1 partP2).1 : ℝ)
      (_semantic_similarity partP1 partP2).1
      ((_hierarchy_similarity partP1 partP2).1 : ℝ)).1 = 0.825
  rw [hm, hf, hh, hs]
  show (0.35 : ℝ) * ((1 : ℚ) : ℝ) + 0.25 * ((0.8 : ℚ) : ℝ)
      + 0.25 * 0.5 + 0.15 * ((1 : ℚ) : ℝ) = 0.825
  push_cast
  norm_num

/-- C6 counterexample: the pairing-table lookup is by ordered pair, so a
part of category Mold against a part of category Materials scores 0.0 while
the reversed argument order scores 0.8 — the claimed order-independence
fails, and the pair (Mold, Materials) does not score 0.8. -/
theorem functional_pairing_order_sensitive :
    (_functional_role_similarity (mkIdPart "M1" "Mold") (mkIdPart "M2" "Materials")).1 = 0 ∧
    (_functional_role_similarity (mkIdPart "M2" "Materials") (mkIdPart "M1" "Mold")).1 = 0.8 :=
  ⟨rfl, rfl⟩

/-- C6 (amended): functional-role similarity is 1.0 for equal category
strings (case-sensitive), else 0.8 exactly when the ORDERED pair of the two
categories is in the fixed pairing table, else 0.0; the table is symmetric
for Bearings/Spindle but lists Materials→Mold and Tools→Mold in one order
only, so those two pairings are direction-sensitive. -/
theorem functional_matches_table_spec (p1 p2 : PartInfo) :
    (_functional_role_similarity p1 p2).1 = functionalSpec p1.category p2.category := by
  unfold _functional_role_similarity functionalSpec
  split_ifs <;> rfl

/-- C9 counterexample: two fetched rows carrying the same part_id "P1"
produce two entries with that part_id — the returned list is not
deduplicated by part_id. -/
theorem fetch_keeps_duplicate_ids :
    ((_fetch_parts_for_product rowsDup).map fun p => p.part_id) = ["P1", "P1"] ∧
    ¬ (((_fetch_parts_for_product rowsDup).map fun p => p.part_id).Nodup) := by
  constructor <;> decide

/-- C9 (amended): the fetch loop maps each row independently — a row whose
part record is null or lacks a usable (non-empty) part_id is silently
skipped, and every other row yields exactly one entry, in row order, with
its category default, truthy assembly names, and spec dictionary; no
deduplication by part_id is performed. -/
theorem fetch_is_rowwise_filterMap (rows : List Row) :
    _fetch_parts_for_product rows = rows.filterMap rowToPart := by
  have h : ∀ (rs : List Row) (acc : List PartInfo),
      rs.foldl
        (fun parts row =>
          match rowToPart row with
          | none => parts
          | some p => parts ++ [p]) acc = acc ++ rs.filterMap rowToPart := by
    intro rs
    induction rs with
    | nil => intro acc; simp
    | cons r rs ih =>
      intro acc
      rcases hr : rowToPart r with _ | p
      · simp [List.foldl_cons, hr, ih]
      · simp [List.foldl_cons, hr, ih]
  simpa using h rows []

/-- Lookup in a spec association list succeeds for every key occurring in it. -/
theorem specLookup_isSome_of_mem (specs : List (String × SpecValue × String))
    (k : String) (h : k ∈ specs.map fun e => e.1) :
    (specLookup specs k).isSome := by
  rcases List.mem_map.mp h with ⟨e, he, rfl⟩
  have hf : (specs.find? fun x => x.1 = e.1).isSome := by
    rw [List.find?_isSome]
    exact ⟨e, he, by simp⟩
  rcases Option.isSome_iff_exists.mp hf with ⟨w, hw⟩
  simp [specLookup, hw]

/-- Mapping the score out of the filtered-and-scored list can be pushed to a
single filterMap over the key list. -/
theorem map_fst_filterMap_filter {α : Type} (p : α → Bool)
    (f : α → Option (ℚ × String)) (l : List α) :
    ((l.filter p).filterMap f).map (fun e => e.1)
      = l.filterMap fun a => if p a then (f a).map (fun e => e.1) else none := by
  induction l with
  | nil => rfl
  | cons a as ih =>
    by_cases hp : p a = true
    · rcases hf : f a with _ | b <;>
        simp [List.filter_cons, hp, List.filterMap_cons, hf, ih]
    · simp [List.filter_cons, hp, List.filterMap_cons, ih]

/-- Pointwise: the score produced by the loop body for one shared key equals
the spec-side comparable-key score. -/
theorem keyEntry_pointwise (p1 p2 : PartInfo) (k : String)
    (h : (specLookup p1.specs k).isSome) :
    (if (specLookup p2.specs k).isSome then
        (keyEntry p1 p2 k).map (fun e => e.1) else none)
      = match specLookup p1.specs k, specLookup p2.specs k with
        | some (v1, _), some (v2, _) => specKeyScore v1 v2
        | _, _ => none := by
  rcases h1 : specLookup p1.specs k with _ | ⟨v1, u1⟩
  · rw [h1] at h; simp at h
  rcases h2 : specLookup p2.specs k with _ | ⟨v2, u2⟩
  · simp [h2]
  cases v1 <;> cases v2 <;>
    simp [keyEntry, h1, h2, specKeyScore, _score_numeric]

/-- For keys present in the first part, the scores collected by the
mechanical loop are exactly the spec-side comparable-key scores. -/
theorem scored_map_fst (p1 p2 : PartInfo) (l : List String)
    (h : ∀ k ∈ l, (specLookup p1.specs k).isSome) :
    ((l.filter fun k => (specLookup p2.specs k).isSome).filterMap
        (keyEntry p1 p2)).map (fun e => e.1)
      = l.filterMap fun k =>
          match specLookup p1.specs k, specLookup p2.specs k with
          | some (v1, _), some (v2, _) => specKeyScore v1 v2
          | _, _ => none := by
  rw [map_fst_filterMap_filter]
  exact List.filterMap_congr fun k hk => keyEntry_pointwise p1 p2 k (h k hk)

/-- C7: mechanical similarity is the arithmetic mean of the per-key scores
over the shared comparable spec keys (numeric pairs by relative closeness
with the zero special cases, equal non-null categorical values as 1.0,
unequal categorical keys skipped), and when no shared comparable key exists
it is 0.0 with the no-shared-specs explanation. -/
theorem mechanical_is_mean_of_shared_keys (p1 p2 : PartInfo) :
    ((_mechanical_similarity p1 p2).1 =
      if sharedComparableScores p1 p2 = [] then 0
      else (sharedComparableScores p1 p2).sum / (sharedComparableScores p1 p2).length) ∧
    (sharedComparableScores p1 p2 = [] →
      (_mechanical_similarity p1 p2).2 =
        ["No shared specs; mechanical similarity default 0.0"]) := by
  have hall : ∀ k ∈ (p1.specs.map fun e => e.1).dedup,
      (specLookup p1.specs k).isSome :=
    fun k hk => specLookup_isSome_of_mem _ _ (List.mem_dedup.mp hk)
  have hm : (mechScored p1 p2).map (fun e => e.1) = sharedComparableScores p1 p2 :=
    scored_map_fst p1 p2 _ hall
  rcases hS : mechScored p1 p2 with _ | ⟨e, es⟩
  · rw [hS] at hm
    have hempty : sharedComparableScores p1 p2 = [] := by simpa using hm.symm
    constructor
    · rw [if_pos hempty]
      simp [_mechanical_similarity, hS]
    · intro _
      simp [_mechanical_similarity, hS]
  · rw [hS] at hm
    have hne : sharedComparableScores p1 p2 ≠ [] := by
      rw [← hm]; simp
    constructor
    · rw [if_neg hne, ← hm]
      simp [_mechanical_similarity, hS, List.length_map]
    · intro hempty
      exact absurd hempty hne

/-- C7 witness: two concrete parts with no shared specs get mechanical score
by the mean formula (here the empty-case default 0.0) and the no-shared-specs
explanation. -/
theorem mechanical_is_mean_witness :
    ((_mechanical_similarity (mkIdPart "W1" "Tools") (mkIdPart "W2" "Mold")).1 =
      if sharedComparableScores (mkIdPart "W1" "Tools") (mkIdPart "W2" "Mold") = []
        then 0
        else (sharedComparableScores (mkIdPart "W1" "Tools") (mkIdPart "W2" "Mold")).sum /
          (sharedComparableScores (mkIdPart "W1" "Tools") (mkIdPart "W2" "Mold")).length) ∧
    (_mechanical_similarity (mkIdPart "W1" "Tools") (mkIdPart "W2" "Mold")).2 =
      ["No shared specs; mechanical similarity default 0.0"] :=
  ⟨(mechanical_is_mean_of_shared_keys (mkIdPart "W1" "Tools") (mkIdPart "W2" "Mold")).1,
    (mechanical_is_mean_of_shared_keys (mkIdPart "W1" "Tools") (mkIdPart "W2" "Mold")).2
      (by decide)⟩

/-- C8: semantic similarity is total on missing data — whenever either
embedding is absent (or empty) or either vector has zero norm it returns
exactly 0.5, otherwise it returns (cos+1)/2 of the cosine of the two
embeddings; in every case it also returns a non-empty explanation list. -/
theorem semantic_default_and_cosine (p1 p2 : PartInfo) :
    ((_semantic_similarity p1 p2).1 =
      if missingOrZero p1 p2 = true then (0.5 : ℝ) else (cosineOf p1 p2 + 1) / 2) ∧
    (_semantic_similarity p1 p2).2 ≠ [] := by
  rcases h1 : p1.embedding with _ | (_ | ⟨x, e1⟩) <;>
    rcases h2 : p2.embedding with _ | (_ | ⟨y, e2⟩) <;>
      simp only [_semantic_similarity, missingOrZero, embMissing, h1, h2] <;>
      try exact ⟨rfl, by simp⟩
  by_cases hz : sumsq (x :: e1) = 0 ∨ sumsq (y :: e2) = 0
  · constructor
    · rw [if_pos hz]
      have : (decide (sumsq (x :: e1) = 0) || decide (sumsq (y :: e2) = 0)) = true := by
        rcases hz with hz | hz <;> simp [hz]
      simp [this, hz]
    · rw [if_pos hz]; simp
  · constructor
    · rw [if_neg hz]
      have : (decide (sumsq (x :: e1) = 0) || decide (sumsq (y :: e2) = 0)) = false := by
        push_neg at hz
        simp [hz.1, hz.2]
      simp only [Bool.false_or, this, if_neg, cosineOf, h1, h2, Option.getD_some]
      simp
    · rw [if_neg hz]; simp

/-- Numeric spec scores are within the unit interval. -/
theorem score_numeric_bounds (a b : ℚ) :
    0 ≤ _score_numeric a b ∧ _score_numeric a b ≤ 1 := by
  unfold _score_numeric
  split_ifs with h1 h2
  · norm_num
  · norm_num
  · constructor
    · exact le_max_left 0 _
    · apply max_le (by norm_num)
      have hd : 0 ≤ |a - b| / max |a| |b| :=
        div_nonneg (abs_nonneg _) (le_trans (abs_nonneg a) (le_max_left _ _))
      linarith

/-- Every spec-side comparable-key score is within the unit interval. -/
theorem specKeyScore_bounds (v1 v2 : SpecValue) (q : ℚ)
    (h : specKeyScore v1 v2 = some q) : 0 ≤ q ∧ q ≤ 1 := by
  cases v1 <;> cases v2 <;> simp only [specKeyScore, Option.some.injEq] at h
  case num.num a b =>
    rw [← h]
    split_ifs with hc1 hc2
    · norm_num
    · norm_num
    · constructor
      · exact le_max_left 0 _
      · apply max_le (by norm_num)
        have hd : 0 ≤ |a - b| / max |a| |b| :=
          div_nonneg (abs_nonneg _) (le_trans (abs_nonneg a) (le_max_left _ _))
        linarith
  all_goals
    split_ifs at h
  all_goals
    (have hq := Option.some.inj h; rw [← hq]; norm_num)

/-- Mean of a list of unit-interval rationals is within the unit interval. -/
theorem list_mean_bounds (l : List ℚ) (h : ∀ x ∈ l, 0 ≤ x ∧ x ≤ 1)
    (hne : l ≠ []) :
    0 ≤ l.sum / l.length ∧ l.sum / l.length ≤ 1 := by
  have hlen : 0 < (l.length : ℚ) := by
    have := List.length_pos.mpr hne
    exact_mod_cast this
  have hsum0 : 0 ≤ l.sum := List.sum_nonneg fun x hx => (h x hx).1
  have hsum1 : l.sum ≤ (l.length : ℚ) := by
    have := List.sum_le_card_nsmul l 1 fun x hx => (h x hx).2
    simpa [nsmul_eq_mul] using this
  constructor
  · exact div_nonneg hsum0 (le_of_lt hlen)
  · rw [div_le_one hlen]
    exact hsum1

/-- Mechanical similarity lies in the unit interval. -/
theorem mechanical_bounds (p1 p2 : PartInfo) :
    0 ≤ (_mechanical_similarity p1 p2).1 ∧ (_mechanical_similarity p1 p2).1 ≤ 1 := by
  rcases hS : mechScored p1 p2 with _ | ⟨e, es⟩
  · simp [_mechanical_similarity, hS]
  · have hall : ∀ k ∈ (p1.specs.map fun e => e.1).dedup,
        (specLookup p1.specs k).isSome :=
      fun k hk => specLookup_isSome_of_mem _ _ (List.mem_dedup.mp hk)
    have hmfst : (mechScored p1 p2).map (fun y => y.1) = sharedComparableScores p1 p2 :=
      scored_map_fst p1 p2 _ hall
    have hb : ∀ x ∈ (e :: es).map (fun y => y.1), 0 ≤ x ∧ x ≤ 1 := by
      intro x hx
      have hx2 : x ∈ sharedComparableScores p1 p2 := by
        rw [← hmfst, hS]; exact hx
      rcases List.mem_filterMap.mp hx2 with ⟨k, _, hk⟩
      rcases hl1 : specLookup p1.specs k with _ | ⟨v1, u1⟩ <;> rw [hl1] at hk
      · simp at hk
      rcases hl2 : specLookup p2.specs k with _ | ⟨v2, u2⟩ <;> rw [hl2] at hk
      · simp at hk
      exact specKeyScore_bounds v1 v2 x (by simpa using hk)
    have hmean := list_mean_bounds ((e :: es).map fun y => y.1) hb (by simp)
    have hval : (_mechanical_similarity p1 p2).1
        = ((e :: es).map fun y => y.1).sum / (((e :: es).map fun y => y.1).length : ℚ) := by
      simp [_mechanical_similarity, hS, List.length_map]
    rw [hval]
    exact hmean

/-- Functional-role similarity lies in the unit interval. -/
theorem functional_bounds (p1 p2 : PartInfo) :
    0 ≤ (_functional_role_similarity p1 p2).1 ∧ (_functional_role_similarity p1 p2).1 ≤ 1 := by
  unfold _functional_role_similarity
  split_ifs <;> norm_num

/-- Hierarchy similarity lies in the unit interval (it is 0 or 1). -/
theorem hierarchy_bounds (p1 p2 : PartInfo) :
    0 ≤ (_hierarchy_similarity p1 p2).1 ∧ (_hierarchy_similarity p1 p2).1 ≤ 1 := by
  rcases hF : p1.assemblies.filter (fun a => a ∈ p2.assemblies) with _ | ⟨a, as⟩ <;>
    simp [_hierarchy_similarity, hF]

/-- Sums of squares are nonnegative. -/
theorem sumsq_nonneg (l : List ℚ) : 0 ≤ sumsq l := by
  unfold sumsq
  induction l with
  | nil => simp
  | cons x xs ih =>
    simp only [List.map_cons, List.sum_cons]
    nlinarith [mul_self_nonneg x]

/-- Unfolding lemma for `sumsq` on a cons cell. -/
theorem sumsq_cons (x : ℚ) (l : List ℚ) : sumsq (x :: l) = x * x + sumsq l := by
  simp [sumsq]

/-- Dot product of an empty left vector. -/
theorem dotzip_nil_left (l : List ℚ) : dotzip [] l = 0 := rfl

/-- Dot product of an empty right vector. -/
theorem dotzip_nil_right (l : List ℚ) : dotzip l [] = 0 := by
  rcases l with _ | ⟨x, xs⟩ <;> rfl

/-- Cauchy–Schwarz for the truncating dot product. -/
theorem dotzip_sq_le (l1 l2 : List ℚ) :
    (dotzip l1 l2) ^ 2 ≤ sumsq l1 * sumsq l2 := by
  induction l1 generalizing l2 with
  | nil =>
    rw [dotzip_nil_left]
    simpa using mul_nonneg (sumsq_nonneg []) (sumsq_nonneg l2)
  | cons x xs ih =>
    rcases l2 with _ | ⟨y, ys⟩
    · rw [dotzip_nil_right]
      simpa using mul_nonneg (sumsq_nonneg (x :: xs)) (sumsq_nonneg [])
    · rw [show dotzip (x :: xs) (y :: ys) = x * y + dotzip xs ys from rfl,
        sumsq_cons, sumsq_cons]
      have ihh := ih ys
      have h1 := sumsq_nonneg xs
      have h2 := sumsq_nonneg ys
      set d := dotzip xs ys
      set s1 := sumsq xs
      set s2 := sumsq ys
      have hb : (2 * (x * y) * d) ^ 2 ≤ (x ^ 2 * s2 + y ^ 2 * s1) ^ 2 := by
        nlinarith [mul_le_mul_of_nonneg_left ihh
            (by positivity : (0 : ℚ) ≤ 4 * (x * y) ^ 2),
          sq_nonneg (x ^ 2 * s2 - y ^ 2 * s1)]
      have hnn : 0 ≤ x ^ 2 * s2 + y ^ 2 * s1 := by positivity
      have key : 2 * (x * y) * d ≤ x ^ 2 * s2 + y ^ 2 * s1 := by
        nlinarith [hb, hnn, sq_nonneg (x ^ 2 * s2 + y ^ 2 * s1 + 2 * (x * y) * d)]
      nlinarith [key, ihh, h1, h2]

/-- Semantic similarity lies in the unit interval. -/
theorem semantic_bounds (p1 p2 : PartInfo) :
    0 ≤ (_semantic_similarity p1 p2).1 ∧ (_semantic_similarity p1 p2).1 ≤ 1 := by
  rcases h1 : p1.embedding with _ | (_ | ⟨x, e1⟩) <;>
    rcases h2 : p2.embedding with _ | (_ | ⟨y, e2⟩) <;>
      simp only [_semantic_similarity, h1, h2] <;> try norm_num
  by_cases hz : sumsq (x :: e1) = 0 ∨ sumsq (y :: e2) = 0
  · rw [if_pos hz]
    norm_num
  · rw [if_neg hz]
    push_neg at hz
    have hq1 : 0 < sumsq (x :: e1) := lt_of_le_of_ne (sumsq_nonneg _) (Ne.symm hz.1)
    have hq2 : 0 < sumsq (y :: e2) := lt_of_le_of_ne (sumsq_nonneg _) (Ne.symm hz.2)
    have hS1 : (0 : ℝ) < ((sumsq (x :: e1) : ℚ) : ℝ) := by exact_mod_cast hq1
    have hS2 : (0 : ℝ) < ((sumsq (y :: e2) : ℚ) : ℝ) := by exact_mod_cast hq2
    have hcs : ((dotzip (x :: e1) (y :: e2) : ℚ) : ℝ) ^ 2
        ≤ ((sumsq (x :: e1) : ℚ) : ℝ) * ((sumsq (y :: e2) : ℚ) : ℝ) := by
      exact_mod_cast dotzip_sq_le (x :: e1) (y :: e2)
    set D : ℝ := ((dotzip (x :: e1) (y :: e2) : ℚ) : ℝ) with hD
    set S1 : ℝ := ((sumsq (x :: e1) : ℚ) : ℝ) with hS1d
    set S2 : ℝ := ((sumsq (y :: e2) : ℚ) : ℝ) with hS2d
    have hden : 0 < Real.sqrt S1 * Real.sqrt S2 :=
      mul_pos (Real.sqrt_pos.mpr hS1) (Real.sqrt_pos.mpr hS2)
    have hdensq : (Real.sqrt S1 * Real.sqrt S2) ^ 2 = S1 * S2 := by
      rw [mul_pow, Real.sq_sqrt (le_of_lt hS1), Real.sq_sqrt (le_of_lt hS2)]
    have hcossq : (D / (Real.sqrt S1 * Real.sqrt S2)) ^ 2 ≤ 1 := by
      rw [div_pow, hdensq, div_le_one (mul_pos hS1 hS2)]
      exact hcs
    have habs : |D / (Real.sqrt S1 * Real.sqrt S2)| ≤ 1 := by
      rw [← sq_le_one_iff_abs_le_one]
      exact hcossq
    rcases abs_le.mp habs with ⟨hlo, hhi⟩
    constructor
    · show (0 : ℝ) ≤ (D / (Real.sqrt S1 * Real.sqrt S2) + 1) / 2
      linarith
    · show (D / (Real.sqrt S1 * Real.sqrt S2) + 1) / 2 ≤ 1
      linarith

/-- The combiner maps unit-interval components to a unit-interval score. -/
theorem combine_bounds (m f s h : ℝ)
    (hm : 0 ≤ m ∧ m ≤ 1) (hf : 0 ≤ f ∧ f ≤ 1)
    (hs : 0 ≤ s ∧ s ≤ 1) (hh : 0 ≤ h ∧ h ≤ 1) :
    0 ≤ (_combine_scores m f s h).1 ∧ (_combine_scores m f s h).1 ≤ 1 := by
  obtain ⟨hm0, hm1⟩ := hm
  obtain ⟨hf0, hf1⟩ := hf
  obtain ⟨hs0, hs1⟩ := hs
  obtain ⟨hh0, hh1⟩ := hh
  unfold _combine_scores
  constructor <;> simp only [] <;> nlinarith

/-- C5: for every pair of part representations, each of the four metric
scores and the combined final score lies in the closed interval [0, 1],
including for empty spec maps, absent or zero-norm embeddings, empty
assembly sets, and arbitrary category strings. -/
theorem scores_within_unit_interval (p1 p2 : PartInfo) :
    (0 ≤ (scorePair p1 p2).mech ∧ (scorePair p1 p2).mech ≤ 1) ∧
    (0 ≤ (scorePair p1 p2).func ∧ (scorePair p1 p2).func ≤ 1) ∧
    (0 ≤ (scorePair p1 p2).sem ∧ (scorePair p1 p2).sem ≤ 1) ∧
    (0 ≤ (scorePair p1 p2).hier ∧ (scorePair p1 p2).hier ≤ 1) ∧
    (0 ≤ (scorePair p1 p2).final ∧ (scorePair p1 p2).final ≤ 1) := by
  have hm := mechanical_bounds p1 p2
  have hf := functional_bounds p1 p2
  have hs := semantic_bounds p1 p2
  have hh := hierarchy_bounds p1 p2
  have hmr : (0 : ℝ) ≤ ((_mechanical_similarity p1 p2).1 : ℝ) ∧
      ((_mechanical_similarity p1 p2).1 : ℝ) ≤ 1 := by exact_mod_cast hm
  have hfr : (0 : ℝ) ≤ ((_functional_role_similarity p1 p2).1 : ℝ) ∧
      ((_functional_role_similarity p1 p2).1 : ℝ) ≤ 1 := by exact_mod_cast hf
  have hhr : (0 : ℝ) ≤ ((_hierarchy_similarity p1 p2).1 : ℝ) ∧
      ((_hierarchy_similarity p1 p2).1 : ℝ) ≤ 1 := by exact_mod_cast hh
  have hfinal := combine_bounds ((_mechanical_similarity p1 p2).1 : ℝ)
    ((_functional_role_similarity p1 p2).1 : ℝ) (_semantic_similarity p1 p2).1
    ((_hierarchy_similarity p1 p2).1 : ℝ) hmr hfr hs hhr
  exact ⟨hm, hf, hs, hh, hfinal⟩

/-- C10: a catalog part whose stored record lacks the category property is
fetched with category "Uncategorized", a virtual part built with no
caller-supplied category gets "Unknown"; two "Uncategorized" parts score
functional 1.0, while "Unknown" against "Uncategorized" scores functional
0.0 in either order (the strings differ and neither ordered pair is in the
pairing table). -/
theorem default_category_unc_vs_unknown :
    (∀ (r : Row) (n : PartNode) (q : PartInfo), r.p = some n → n.category = none →
        rowToPart r = some q → q.category = "Uncategorized") ∧
    (∀ (d : String) (c : Option (List (String × SpecValue × String)))
        (ah : Option String) (emb : Option (List ℚ)),
        (_build_virtual_part d none c ah emb).category = "Unknown") ∧
    (∀ q1 q2 : PartInfo, q1.category = "Uncategorized" → q2.category = "Uncategorized" →
        (_functional_role_similarity q1 q2).1 = 1) ∧
    (∀ qv qc : PartInfo, qv.category = "Unknown" → qc.category = "Uncategorized" →
        (_functional_role_similarity qv qc).1 = 0 ∧
          (_functional_role_similarity qc qv).1 = 0) := by
  refine ⟨?_, ?_, ?_, ?_⟩
  · intro r n q hp hc hq
    rcases hid : n.part_id with _ | pid
    · simp [rowToPart, hp, hid] at hq
    · by_cases hpe : pid = ""
      · simp [rowToPart, hp, hid, hpe] at hq
      · simp only [rowToPart, hp, hid, if_neg hpe, Option.some.injEq] at hq
        rw [← hq, hc]
        rfl
  · intro d c ah emb
    rfl
  · intro q1 q2 h1 h2
    unfold _functional_role_similarity
    rw [h1, h2]
    rfl
  · intro qv qc h1 h2
    unfold _functional_role_similarity
    rw [h1, h2]
    constructor <;> rfl

/-- C10 witness: the concrete category-less row fetches as "Uncategorized",
the concrete virtual part defaults to "Unknown", and the concrete functional
scores are 1.0 and 0.0 as the claim states. -/
theorem default_category_witness :
    ((rowToPart rowNoCat).map fun q => q.category) = some "Uncategorized" ∧
    (_build_virtual_part "a new part" none none none none).category = "Unknown" ∧
    (_functional_role_similarity (mkIdPart "c1" "Uncategorized")
        (mkIdPart "c2" "Uncategorized")).1 = 1 ∧
    (_functional_role_similarity (_build_virtual_part "a new part" none none none none)
        (mkIdPart "c1" "Uncategorized")).1 = 0 := by
  refine ⟨?_, ?_, ?_, ?_⟩
  · rcases hq : rowToPart rowNoCat with _ | q
    · exact absurd hq (by decide)
    · have := default_category_unc_vs_unknown.1 rowNoCat
        { part_id := some "PC", name := none, category := none,
          description := none, embedding := none } q rfl rfl hq
      simp [hq, this]
  · exact default_category_unc_vs_unknown.2.1 "a new part" none none none
  · exact default_category_unc_vs_unknown.2.2.1 _ _ rfl rfl
  · exact (default_category_unc_vs_unknown.2.2.2
      (_build_virtual_part "a new part" none none none none)
      (mkIdPart "c1" "Uncategorized") rfl rfl).1

/-- Python dict keys are distinct: the insertion-ordered key list is Nodup. -/
theorem partMapIds_nodup (parts : List PartInfo) : (partMapIds parts).Nodup := by
  have h : ∀ (l : List PartInfo) (acc : List String), acc.Nodup →
      (l.foldl (fun acc p => if p.part_id ∈ acc then acc else acc ++ [p.part_id])
        acc).Nodup := by
    intro l
    induction l with
    | nil => intro acc hacc; exact hacc
    | cons p ps ih =>
      intro acc hacc
      by_cases hmem : p.part_id ∈ acc
      · simp only [List.foldl_cons, if_pos hmem]
        exact ih acc hacc
      · simp only [List.foldl_cons, if_neg hmem]
        apply ih
        rw [List.nodup_append]
        refine ⟨hacc, List.nodup_singleton _, ?_⟩
        intro x hx hx2
        rw [List.mem_singleton] at hx2
        subst hx2
        exact hmem hx
  exact h parts [] List.nodup_nil

/-- Every key of the part map comes from some fetched part. -/
theorem partMapIds_mem_parts (parts : List PartInfo) (a : String)
    (h : a ∈ partMapIds parts) : ∃ p ∈ parts, p.part_id = a := by
  have hinv : ∀ (l : List PartInfo) (acc : List String),
      a ∈ l.foldl (fun acc p => if p.part_id ∈ acc then acc else acc ++ [p.part_id]) acc →
      a ∈ acc ∨ ∃ p ∈ l, p.part_id = a := by
    intro l
    induction l with
    | nil => intro acc ha; exact Or.inl ha
    | cons p ps ih =>
      intro acc ha
      by_cases hmem : p.part_id ∈ acc
      · rw [List.foldl_cons, if_pos hmem] at ha
        rcases ih acc ha with h1 | ⟨q, hq, hqa⟩
        · exact Or.inl h1
        · exact Or.inr ⟨q, List.mem_cons_of_mem p hq, hqa⟩
      · rw [List.foldl_cons, if_neg hmem] at ha
        rcases ih _ ha with h1 | ⟨q, hq, hqa⟩
        · rcases List.mem_append.mp h1 with h2 | h2
          · exact Or.inl h2
          · rw [List.mem_singleton] at h2
            exact Or.inr ⟨p, List.mem_cons_self p ps, h2.symm⟩
        · exact Or.inr ⟨q, List.mem_cons_of_mem p hq, hqa⟩
  rcases hinv parts [] h with h1 | h2
  · simp at h1
  · exact h2

/-- Indexing the part map at one of its keys yields a part with that id. -/
theorem partMapGet_isSome (parts : List PartInfo) (a : String)
    (h : a ∈ partMapIds parts) :
    ∃ p, partMapGet parts a = some p ∧ p.part_id = a := by
  rcases partMapIds_mem_parts parts a h with ⟨p, hp, hpa⟩
  have hf : (parts.reverse.find? fun q => q.part_id = a).isSome := by
    rw [List.find?_isSome]
    exact ⟨p, by simp [hp], by simp [hpa]⟩
  rcases Option.isSome_iff_exists.mp hf with ⟨q, hq⟩
  refine ⟨q, hq, ?_⟩
  have := List.find?_some hq
  simpa using this

/-- Every unordered pair of distinct ids is enumerated in one order. -/
theorem orderedPairs_cover (l : List String) (a b : String)
    (ha : a ∈ l) (hb : b ∈ l) (hne : a ≠ b) :
    (a, b) ∈ orderedPairs l ∨ (b, a) ∈ orderedPairs l := by
  induction l with
  | nil => simp at ha
  | cons x xs ih =>
    rcases List.mem_cons.mp ha with rfl | ha2
    · have hbx : b ∈ xs := by
        rcases List.mem_cons.mp hb with rfl | h
        · exact absurd rfl hne
        · exact h
      left
      unfold orderedPairs
      exact List.mem_append.mpr (Or.inl (List.mem_map.mpr ⟨b, hbx, rfl⟩))
    · rcases List.mem_cons.mp hb with rfl | hb2
      · right
        unfold orderedPairs
        exact List.mem_append.mpr (Or.inl (List.mem_map.mpr ⟨a, ha2, rfl⟩))
      · rcases ih ha2 hb2 with h | h
        · left
          unfold orderedPairs
          exact List.mem_append.mpr (Or.inr h)
        · right
          unfold orderedPairs
          exact List.mem_append.mpr (Or.inr h)

/-- An enumerated pair consists of two distinct members of a Nodup list. -/
theorem orderedPairs_mem_spec (l : List String) (hl : l.Nodup) (a b : String)
    (h : (a, b) ∈ orderedPairs l) : a ∈ l ∧ b ∈ l ∧ a ≠ b := by
  induction l with
  | nil => simp [orderedPairs] at h
  | cons x xs ih =>
    rw [List.nodup_cons] at hl
    unfold orderedPairs at h
    rcases List.mem_append.mp h with h1 | h2
    · rcases List.mem_map.mp h1 with ⟨y, hy, heq⟩
      cases heq
      refine ⟨List.mem_cons_self _ _, List.mem_cons_of_mem _ hy, ?_⟩
      intro hab
      exact hl.1 (hab ▸ hy)
    · rcases ih hl.2 h2 with ⟨h3, h4, h5⟩
      exact ⟨List.mem_cons_of_mem _ h3, List.mem_cons_of_mem _ h4, h5⟩

/-- Over a Nodup id list, a pair is enumerated in at most one order. -/
theorem orderedPairs_antisymm (l : List String) (hl : l.Nodup) (a b : String)
    (h : (a, b) ∈ orderedPairs l) : (b, a) ∉ orderedPairs l := by
  induction l with
  | nil => simp [orderedPairs] at h
  | cons x xs ih =>
    rw [List.nodup_cons] at hl
    intro hba
    unfold orderedPairs at h hba
    rcases List.mem_append.mp h with h1 | h2 <;>
      rcases List.mem_append.mp hba with hb1 | hb2
    · rcases List.mem_map.mp h1 with ⟨y, hy, heq⟩
      rcases List.mem_map.mp hb1 with ⟨z, hz, heqz⟩
      have hax : x = a := congrArg Prod.fst heq
      have hbx : x = b := congrArg Prod.fst heqz
      have hby : y = b := congrArg Prod.snd heq
      exact hl.1 ((hbx.trans hby.symm) ▸ hy)
    · rcases List.mem_map.mp h1 with ⟨y, hy, heq⟩
      have hax : x = a := congrArg Prod.fst heq
      rcases orderedPairs_mem_spec xs hl.2 b a hb2 with ⟨_, h4, _⟩
      exact hl.1 (hax ▸ h4)
    · rcases List.mem_map.mp hb1 with ⟨z, hz, heqz⟩
      have hbx : x = b := congrArg Prod.fst heqz
      rcases orderedPairs_mem_spec xs hl.2 a b h2 with ⟨_, h4, _⟩
      exact hl.1 (hbx ▸ h4)
    · exact ih hl.2 h2 hb2

/-- Decompose membership in the flattened batch edge list. -/
theorem finalEdges_mem (parts : List PartInfo) (e : EdgeWrite) :
    e ∈ finalEdges parts ↔
      ∃ pr ∈ orderedPairs (partMapIds parts), e ∈ pairTxn parts pr := by
  unfold finalEdges computeTransactions
  rw [List.mem_flatten]
  constructor
  · rintro ⟨t, ht, he⟩
    rcases List.mem_map.mp ht with ⟨pr, hpr, rfl⟩
    exact ⟨pr, hpr, he⟩
  · rintro ⟨pr, hpr, he⟩
    exact ⟨pairTxn parts pr, List.mem_map_of_mem _ hpr, he⟩

/-- C1: after batch computation, for every unordered pair of distinct part
ids both directed edges exist; the b→a edge carries exactly the score,
sub-scores, and explanation list of the a→b edge, and each directed edge of
the pair is unique in the write sequence. -/
theorem batch_edges_symmetric (parts : List PartInfo) (a b : String)
    (hne : a ≠ b) (ha : a ∈ partMapIds parts) (hb : b ∈ partMapIds parts) :
    ∃ e1 e2, e1 ∈ finalEdges parts ∧ e2 ∈ finalEdges parts ∧
      e1.src = a ∧ e1.dst = b ∧ e2.src = b ∧ e2.dst = a ∧
      e2.score = e1.score ∧ e2.mechanical = e1.mechanical ∧
      e2.functional = e1.functional ∧ e2.semantic = e1.semantic ∧
      e2.hierarchy = e1.hierarchy ∧ e2.explanations = e1.explanations ∧
      (∀ e ∈ finalEdges parts, e.src = a → e.dst = b → e = e1) ∧
      (∀ e ∈ finalEdges parts, e.src = b → e.dst = a → e = e2) := by
  have hids := partMapIds_nodup parts
  have main : ∀ c d : String, (c, d) ∈ orderedPairs (partMapIds parts) →
      ∃ e1 e2, e1 ∈ finalEdges parts ∧ e2 ∈ finalEdges parts ∧
        e1.src = c ∧ e1.dst = d ∧ e2.src = d ∧ e2.dst = c ∧
        e2.score = e1.score ∧ e2.mechanical = e1.mechanical ∧
        e2.functional = e1.functional ∧ e2.semantic = e1.semantic ∧
        e2.hierarchy = e1.hierarchy ∧ e2.explanations = e1.explanations ∧
        (∀ e ∈ finalEdges parts, e.src = c → e.dst = d → e = e1) ∧
        (∀ e ∈ finalEdges parts, e.src = d → e.dst = c → e = e2) := by
    intro c d hpair
    rcases orderedPairs_mem_spec _ hids c d hpair with ⟨hc, hd, hcd⟩
    rcases partMapGet_isSome parts c hc with ⟨p1, hp1, _⟩
    rcases partMapGet_isSome parts d hd with ⟨p2, hp2, _⟩
    have hT : pairTxn parts (c, d) = pairTransaction c d p1 p2 := by
      unfold pairTxn
      rw [hp1, hp2]
    refine ⟨(pairTransaction c d p1 p2).get ⟨0, by simp [pairTransaction]⟩,
      (pairTransaction c d p1 p2).get ⟨1, by simp [pairTransaction]⟩,
      ?_, ?_, rfl, rfl, rfl, rfl, rfl, rfl, rfl, rfl, rfl, rfl, ?_, ?_⟩
    · rw [finalEdges_mem]
      exact ⟨(c, d), hpair, by rw [hT]; simp [pairTransaction]⟩
    · rw [finalEdges_mem]
      exact ⟨(c, d), hpair, by rw [hT]; simp [pairTransaction]⟩
    · intro e he hsrc hdst
      rcases (finalEdges_mem parts e).mp he with ⟨⟨u, v⟩, hpr, hepr⟩
      rcases orderedPairs_mem_spec _ hids u v hpr with ⟨hu, hv, huv⟩
      rcases partMapGet_isSome parts u hu with ⟨q1, hq1, _⟩
      rcases partMapGet_isSome parts v hv with ⟨q2, hq2, _⟩
      have hTe : pairTxn parts (u, v) = pairTransaction u v q1 q2 := by
        unfold pairTxn
        rw [hq1, hq2]
      rw [hTe] at hepr
      simp only [pairTransaction, List.mem_cons, List.not_mem_nil, or_false] at hepr
      rcases hepr with rfl | rfl
      · have huc : u = c := hsrc
        have hvd : v = d := hdst
        subst huc
        subst hvd
        rw [hq1] at hp1
        rw [hq2] at hp2
        cases Option.some.inj hp1
        cases Option.some.inj hp2
        rfl
      · have hvc : v = c := hsrc
        have hud : u = d := hdst
        subst hvc
        subst hud
        exact absurd hpair (orderedPairs_antisymm _ hids u v hpr)
    · intro e he hsrc hdst
      rcases (finalEdges_mem parts e).mp he with ⟨⟨u, v⟩, hpr, hepr⟩
      rcases orderedPairs_mem_spec _ hids u v hpr with ⟨hu, hv, huv⟩
      rcases partMapGet_isSome parts u hu with ⟨q1, hq1, _⟩
      rcases partMapGet_isSome parts v hv with ⟨q2, hq2, _⟩
      have hTe : pairTxn parts (u, v) = pairTransaction u v q1 q2 := by
        unfold pairTxn
        rw [hq1, hq2]
      rw [hTe] at hepr
      simp only [pairTransaction, List.mem_cons, List.not_mem_nil, or_false] at hepr
      rcases hepr with rfl | rfl
      · have huc : u = d := hsrc
        have hvd : v = c := hdst
        subst huc
        subst hvd
        exact absurd hpair (orderedPairs_antisymm _ hids u v hpr)
      · have hvc : v = d := hsrc
        have hud : u = c := hdst
        subst hvc
        subst hud
        rw [hq1] at hp1
        rw [hq2] at hp2
        cases Option.some.inj hp1
        cases Option.some.inj hp2
        rfl
  rcases orderedPairs_cover _ a b ha hb hne with hpair | hpair
  · exact main a b hpair
  · rcases main b a hpair with
      ⟨e1, e2, hm1, hm2, hs1, hd1, hs2, hd2, hsc, hme, hfu, hse, hhi, hex, hu1, hu2⟩
    exact ⟨e2, e1, hm2, hm1, hs2, hd2, hs1, hd1, hsc.symm, hme.symm, hfu.symm,
      hse.symm, hhi.symm, hex.symm, hu2, hu1⟩

/-- C1 witness: in the two-part example product, both directed edges between
P1 and P2 exist, are unique, and carry identical fields. -/
theorem batch_edges_symmetric_witness :
    ∃ e1 e2, e1 ∈ finalEdges parts2 ∧ e2 ∈ finalEdges parts2 ∧
      e1.src = "P1" ∧ e1.dst = "P2" ∧ e2.src = "P2" ∧ e2.dst = "P1" ∧
      e2.score = e1.score ∧ e2.mechanical = e1.mechanical ∧
      e2.functional = e1.functional ∧ e2.semantic = e1.semantic ∧
      e2.hierarchy = e1.hierarchy ∧ e2.explanations = e1.explanations ∧
      (∀ e ∈ finalEdges parts2, e.src = "P1" → e.dst = "P2" → e = e1) ∧
      (∀ e ∈ finalEdges parts2, e.src = "P2" → e.dst = "P1" → e = e2) :=
  batch_edges_symmetric parts2 "P1" "P2" (by decide) (by decide) (by decide)

/-- C2 counterexample: on a three-part product there are three unordered
pairs but the write capability `run_write` is invoked exactly once for the
whole batch — each pair's symmetric edge write is not its own `run_write`
invocation. -/
theorem run_write_not_per_pair :
    (compute_compatibility_for_product parts3).length = 1 ∧
    (orderedPairs (partMapIds parts3)).length = 3 ∧
    (compute_compatibility_for_product parts3).length ≠
      (orderedPairs (partMapIds parts3)).length := by
  refine ⟨rfl, by decide, ?_⟩
  rw [show (compute_compatibility_for_product parts3).length = 1 from rfl]
  decide

/-- C2 (amended): the batch makes a single `run_write` invocation; inside
its session each unordered pair is one auto-committed `session.run` query,
so there is one transaction per pair (none spanning two pairs, each holding
exactly the two mirrored edges of its own pair), and stopping after the
first k transactions commits exactly the first k pairs. -/
theorem per_pair_transactions (parts : List PartInfo) :
    (compute_compatibility_for_product parts).length = 1 ∧
    (computeTransactions parts).length = (orderedPairs (partMapIds parts)).length ∧
    (∀ k, (computeTransactions parts).take k
        = ((orderedPairs (partMapIds parts)).take k).map (pairTxn parts)) ∧
    (∀ t ∈ computeTransactions parts, ∃ a b, a ≠ b ∧ t.length = 2 ∧
        ∀ e ∈ t, (e.src = a ∧ e.dst = b) ∨ (e.src = b ∧ e.dst = a)) := by
  refine ⟨rfl, by simp [computeTransactions], ?_, ?_⟩
  · intro k
    unfold computeTransactions
    rw [List.map_take]
  · intro t ht
    rcases List.mem_map.mp ht with ⟨⟨a, b⟩, hpr, rfl⟩
    rcases orderedPairs_mem_spec _ (partMapIds_nodup parts) a b hpr with ⟨ha, hb, hab⟩
    rcases partMapGet_isSome parts a ha with ⟨p1, hp1, _⟩
    rcases partMapGet_isSome parts b hb with ⟨p2, hp2, _⟩
    have hT : pairTxn parts (a, b) = pairTransaction a b p1 p2 := by
      unfold pairTxn
      rw [hp1, hp2]
    refine ⟨a, b, hab, by rw [hT]; simp [pairTransaction], ?_⟩
    intro e he
    rw [hT] at he
    simp only [pairTransaction, List.mem_cons, List.not_mem_nil, or_false] at he
    rcases he with rfl | rfl
    · exact Or.inl ⟨rfl, rfl⟩
    · exact Or.inr ⟨rfl, rfl⟩

/-- C2 witness: on the three-part product, taking the first transaction
commits exactly the first pair, and the first transaction of the batch
spans exactly the pair (A, B). -/
theorem per_pair_transactions_witness :
    ((computeTransactions parts3).take 1
        = ((orderedPairs (partMapIds parts3)).take 1).map (pairTxn parts3)) ∧
    (∃ a b, a ≠ b ∧ (pairTxn parts3 ("A", "B")).length = 2 ∧
        ∀ e ∈ pairTxn parts3 ("A", "B"),
          (e.src = a ∧ e.dst = b) ∨ (e.src = b ∧ e.dst = a)) := by
  constructor
  · exact (per_pair_transactions parts3).2.2.1 1
  · exact (per_pair_transactions parts3).2.2.2 (pairTxn parts3 ("A", "B"))
      (List.mem_map_of_mem _ (by decide))

end AssetGraph
